import Mathlib

/-!
Verification of the import-assembly and asset-resolution engine of the
`bulma.py` repository (package `bulma`, modules `bulma/bulma.py` and
`bulma/main.py`).  The package's `__init__.py` re-exports the `Compiler` and
`Include` of `bulma/bulma.py`, so that module is embedded as the authority;
`bulma/main.py` is an older near-duplicate and is referred to where the two
diverge.

Paths are modelled as lists of components (`List String`).  A filesystem is a
flat list of entries (path plus directory flag), listed in the order the
recursive directory traversal of `pathlib` yields them; `iterdir` and `rglob`
are filters over that list.  The external libsass binding (`sass.compile`) is
modelled as an opaque pure function over an explicit call record, as the spec
treats it.  Machine-level I/O (`mkdir`, `write_text`) is modelled by explicit
state passing over a small filesystem state.
-/

/-- Characters of a string: suffix test over the character lists, modelling
Python `str.endswith` (the built-in `String.endsWith` does not reduce in the
kernel). -/
def strEndsWith (s suffix : String) : Bool :=
  suffix.toList.isSuffixOf s.toList

/-- Prefix test over the character lists, modelling Python `str.startswith`. -/
def strStartsWith (s pre : String) : Bool :=
  pre.toList.isPrefixOf s.toList

/-- Split a character list on a separator character; mirrors Python
`str.split(sep)` for a one-character separator (the built-in `String.splitOn`
does not reduce in the kernel). -/
def splitOnChar (sep : Char) : List Char → List (List Char)
  | [] => [[]]
  | c :: rest =>
      if c = sep then [] :: splitOnChar sep rest
      else
        match splitOnChar sep rest with
        | [] => [[c]]
        | g :: gs => (c :: g) :: gs

/-- Split a string on a separator character. -/
def strSplitOn (s : String) (sep : Char) : List String :=
  (splitOnChar sep s.toList).map String.mk

/-- Model of `get_name` (bulma.py line 57): `name.partition(".")` keeps the
part before the first dot (the whole string when there is no dot). -/
def get_name (s : String) : String :=
  String.mk (s.toList.takeWhile (fun c => c ≠ '.'))

/-- Model of `is_private` (bulma.py line 53): the name starts with `"_"`. -/
def is_private (s : String) : Bool :=
  strStartsWith s "_"

/-- Last path component, modelling `Path.name` for a non-empty component
list. -/
def lastName (p : List String) : String :=
  p.getLastD ""

/-- Index of the last `'.'` in a character list, modelling `str.rfind`. -/
def lastDotIdx : List Char → Option Nat
  | [] => none
  | c :: rest =>
      match lastDotIdx rest with
      | some i => some (i + 1)
      | none => if c = '.' then some 0 else none

/-- Model of CPython `PurePath.stem`: the final component without its last
suffix, where a suffix is `name[i:]` for `i = name.rfind('.')`, provided
`0 < i < len(name) - 1`. -/
def pyStem (s : String) : String :=
  let cs := s.toList
  match lastDotIdx cs with
  | some i => if 0 < i ∧ i < cs.length - 1 then String.mk (cs.take i) else s
  | none => s

/-- Model of `path.with_suffix("")` (bulma.py line 499): the last component is
replaced by its stem. -/
def withSuffixEmpty (p : List String) : List String :=
  p.dropLast ++ [pyStem (lastName p)]

/-- Model of CPython `PurePath.suffixes`: drop leading dots from the name and
return every later dot-separated part, each with a leading dot; a name ending
in a dot has no suffixes. -/
def pySuffixes (s : String) : List String :=
  if strEndsWith s "." then []
  else
    let n := String.mk (s.toList.dropWhile (fun c => c = '.'))
    ((strSplitOn n '.').tail).map (fun part => "." ++ part)

/-- Model of Python `str.splitlines` for newline-separated text: split on
`"\n"`, except that a trailing newline does not contribute a final empty
line, and the empty string has no lines. -/
def pySplitlines (s : String) : List String :=
  let parts := strSplitOn s '\n'
  if parts.getLast? = some "" then parts.dropLast else parts

/-- Escape one character the way CPython `repr` renders printable ASCII
string content for a given quote character. -/
def pyReprQuote (q : Char) (c : Char) : String :=
  if c = '\\' ∨ c = q then "\\" ++ String.mk [c] else String.mk [c]

/-- Model of CPython `repr` on a printable-ASCII string (the only strings the
source ever formats with `!r`): single quotes unless the content holds a
single quote and no double quote. -/
def pyRepr (s : String) : String :=
  let cs := s.toList
  let q : Char := if cs.contains '\'' && !cs.contains '"' then '"' else '\''
  String.mk [q] ++ String.join (cs.map (pyReprQuote q)) ++ String.mk [q]

/-- Model of `Path.as_posix` on a relative path: components joined with
forward slashes. -/
def asPosixRel : List String → String
  | [] => ""
  | [x] => x
  | x :: xs => x ++ "/" ++ asPosixRel xs

/-- Model of `Path.as_posix` on an absolute path whose components are given
without the leading separator. -/
def asPosixAbs (p : List String) : String :=
  "/" ++ asPosixRel p

/-- Model of `Path.relative_to(root)`: prefix removal.  Python raises
`ValueError` when `root` is not a prefix of `p`; every call site below feeds
paths built under `root`, where the call is exact prefix removal.  The
`Option`-valued variant `relativeToChecked` is used where the raising
behaviour itself matters. -/
def relTo (root p : List String) : List String :=
  p.drop root.length

/-- Model of `Path.relative_to(root)` keeping the failure case: `none` stands
for the `ValueError` Python raises when `root` is not a prefix. -/
def relativeToChecked (p root : List String) : Option (List String) :=
  if root.isPrefixOf p then some (p.drop root.length) else none

/-- Model of `Path(file).name` on a slash-separated path string (bulma.py
line 179); `pathlib` drops empty segments when parsing. -/
def pathName (s : String) : String :=
  ((strSplitOn s '/').filter (fun part => part ≠ "")).getLastD ""

/-- Tokens of the `fnmatch` pattern language, restricted to the constructs
the source's fixed glob patterns use: literal characters, `*`, `?`, and
bracket classes with optional `!` negation (no ranges). -/
inductive Tok where
  | lit : Char → Tok
  | star : Tok
  | anyChar : Tok
  | cls : Bool → List Char → Tok
deriving DecidableEq

/-- Parse the body of a bracket class after `[` or `[!`: characters up to the
closing `]`.  Returns `none` when the bracket is unclosed (then `fnmatch`
treats `[` as a literal). -/
def clsBody : List Char → Option (List Char × List Char)
  | [] => none
  | ']' :: rest => some ([], rest)
  | c :: rest =>
      match clsBody rest with
      | some (set, after) => some (c :: set, after)
      | none => none

/-- Tokenizer for the `fnmatch` pattern fragment above.  The fuel is the
pattern length, which is always sufficient since each step consumes at least
one character. -/
def tokenizeAux : Nat → List Char → List Tok
  | 0, _ => []
  | _ + 1, [] => []
  | fuel + 1, '*' :: rest => Tok.star :: tokenizeAux fuel rest
  | fuel + 1, '?' :: rest => Tok.anyChar :: tokenizeAux fuel rest
  | fuel + 1, '[' :: rest =>
      match rest with
      | '!' :: rest' =>
          match clsBody rest' with
          | some (set, after) => Tok.cls true set :: tokenizeAux fuel after
          | none => Tok.lit '[' :: tokenizeAux fuel rest
      | _ =>
          match clsBody rest with
          | some (set, after) => Tok.cls false set :: tokenizeAux fuel after
          | none => Tok.lit '[' :: tokenizeAux fuel rest
  | fuel + 1, c :: rest => Tok.lit c :: tokenizeAux fuel rest

/-- Tokenize an `fnmatch` pattern string. -/
def tokenize (pat : String) : List Tok :=
  tokenizeAux pat.toList.length pat.toList

/-- Matcher for a token list against a name, with explicit fuel so that the
definition is structural and evaluates in the kernel.  Any fuel exceeding
`toks.length + s.length` is sufficient: every step shrinks that sum. -/
def matchFuel : Nat → List Tok → List Char → Bool
  | 0, _, _ => false
  | _ + 1, [], s => s.isEmpty
  | fuel + 1, Tok.star :: ps, s =>
      matchFuel fuel ps s ||
        (match s with
         | [] => false
         | _ :: s' => matchFuel fuel (Tok.star :: ps) s')
  | _ + 1, Tok.lit _ :: _, [] => false
  | fuel + 1, Tok.lit c :: ps, c' :: s' => c == c' && matchFuel fuel ps s'
  | _ + 1, Tok.anyChar :: _, [] => false
  | fuel + 1, Tok.anyChar :: ps, _ :: s' => matchFuel fuel ps s'
  | _ + 1, Tok.cls _ _ :: _, [] => false
  | fuel + 1, Tok.cls neg set :: ps, c' :: s' =>
      (set.contains c' != neg) && matchFuel fuel ps s'

/-- Match a token list against a character list with adequate fuel. -/
def matchToks (toks : List Tok) (s : List Char) : Bool :=
  matchFuel (toks.length + s.length + 1) toks s

/-- Model of `fnmatch`-style glob matching of a pattern against one path
component, as `pathlib`'s glob applies it case-sensitively on POSIX. -/
def globMatch (pat : String) (name : String) : Bool :=
  matchToks (tokenize pat) name.toList

/-- One filesystem entry: an absolute path (as components, without the
leading separator) plus whether it is a directory.  A filesystem is a list of
entries in the order the recursive traversal of `pathlib` visits them (per
directory, `scandir` order; directories before their contents). -/
structure Entry where
  path : List String
  isDir : Bool
deriving DecidableEq

/-- Model of `Path.iterdir()` at directory `dir`: the immediate children, in
traversal order. -/
def iterdir (fs : List Entry) (dir : List String) : List Entry :=
  fs.filter (fun e => dir.isPrefixOf e.path && decide (e.path.length = dir.length + 1))

/-- Model of `Path.rglob(pat)` at directory `dir`: every entry strictly below
`dir`, at any depth, whose final component matches the glob pattern.  A
directory that does not exist contributes no entries, as `pathlib`'s selector
yields nothing for a missing or non-directory start. -/
def rglob (fs : List Entry) (dir : List String) (pat : String) : List (List String) :=
  (fs.filter (fun e =>
    dir.isPrefixOf e.path && decide (dir.length < e.path.length) &&
      globMatch pat (lastName e.path))).map (fun e => e.path)

/-- Model of `unique` (bulma.py lines 104-113): keep the first occurrence of
each item, dropping later duplicates.  The Python `set` of seen items is
modelled by a list used only through membership. -/
def uniqueAux {α : Type} [DecidableEq α] (seen : List α) : List α → List α
  | [] => []
  | a :: rest =>
      if a ∈ seen then uniqueAux seen rest else a :: uniqueAux (a :: seen) rest

/-- Model of `unique` applied from an empty seen-set. -/
def unique {α : Type} [DecidableEq α] (l : List α) : List α :=
  uniqueAux [] l

/-- Association-list lookup, modelling Python `dict` indexing (first entry
wins; the construction below keeps keys unique exactly as a `dict` does). -/
def alookup {α : Type} : List (String × α) → String → Option α
  | [], _ => none
  | kv :: rest, k => if kv.1 = k then some kv.2 else alookup rest k

/-- Model of one Python `dict` assignment `d[k] = v`: an existing key keeps
its position and gets the new value; a new key is appended. -/
def setItem {α : Type} (d : List (String × α)) (kv : String × α) : List (String × α) :=
  if kv.1 ∈ d.map Prod.fst then
    d.map (fun p => if p.1 = kv.1 then (p.1, kv.2) else p)
  else d ++ [kv]

/-- Model of Python `dict.update(u)`: assign every item of `u` in order. -/
def dictUpdate {α : Type} (d : List (String × α)) : List (String × α) → List (String × α)
  | [] => d
  | kv :: rest => dictUpdate (setItem d kv) rest

/-- The extension selector of the configuration: either the `FIND` sentinel
string or an explicit list (bulma.py lines 214, 255-262). -/
inductive ExtSel where
  | find : ExtSel
  | explicitList : List String → ExtSel
deriving DecidableEq

/-- Model of the `Compiler` configuration of bulma.py (lines 211-241):
`root` is `self._path` (the package directory, an absolute path given by its
components) and `fs` the filesystem below it.  Variable values are the
strings they are interpolated as.  `settings` holds the extra keyword
settings, of which only the per-theme `..._variables` mappings are read.
The source's field name `variables` is a reserved token in Lean, so that
field is spelled `variablesMap` here. -/
structure Compiler where
  root : List String
  fs : List Entry
  extensionsSel : ExtSel
  themes : List String
  variablesMap : List (String × String)
  override : String
  minified : Bool
  outputStyle : String
  custom : List String
  settings : List (String × List (String × String))

/-- Model of `self.bulma_path = PATH / BULMA / SASS` (bulma.py line 241). -/
def bulmaPath (c : Compiler) : List String :=
  c.root ++ ["bulma", "sass"]

/-- Model of `Compiler.generate_extensions` (bulma.py lines 264-266): the
entry names one level below the extensions directory. -/
def generateExtensions (c : Compiler) : List String :=
  (iterdir c.fs (c.root ++ ["extensions"])).map (fun e => lastName e.path)

/-- Model of the `Compiler.extensions` property (bulma.py lines 255-262): the
`FIND` sentinel resolves to the discovered extension names, an explicit list
is returned as given. -/
def resolvedExtensions (c : Compiler) : List String :=
  match c.extensionsSel with
  | ExtSel.find => generateExtensions c
  | ExtSel.explicitList l => l

/-- Model of `Compiler.is_enabled` (bulma.py line 268): membership in the
resolved extension collection. -/
def isEnabled (c : Compiler) (name : String) : Bool :=
  (resolvedExtensions c).contains name

/-- Model of `Compiler.get_theme_variables` (bulma.py lines 286-287):
`settings.get(f"{theme}_variables", {})`. -/
def getThemeVariables (c : Compiler) (theme : String) : List (String × String) :=
  (alookup c.settings (theme ++ "_variables")).getD []

/-- Model of the `IMPORT` template (bulma.py line 67): `"@import {path!r};"`
with the path rendered by `repr`. -/
def importLine (path : String) : String :=
  "@import " ++ pyRepr path ++ ";"

/-- Model of the `CHARSET` line (bulma.py line 66). -/
def CHARSET : String :=
  "@charset " ++ pyRepr "utf-8" ++ ";"

/-- Model of `Compiler.generate_variables` (bulma.py lines 301-303): one
`"${name}: {value};"` line per entry, in mapping iteration order. -/
def generateVariables (vars : List (String × String)) : List String :=
  vars.map (fun kv => "$" ++ kv.1 ++ ": " ++ kv.2 ++ ";")

/-- The `INITIAL` tuple (bulma.py line 36). -/
def INITIAL : List String :=
  ["initial-variables", "functions"]

/-- The exclusion set `set(INITIAL) | MOVED` of `get_bulma_derived` (bulma.py
line 317), used only through membership. -/
def DERIVED_EXCLUDE : List String :=
  ["initial-variables", "functions", "animations"]

/-- Model of `Compiler.get_bulma_initial` (bulma.py lines 310-314): one
line of import per `INITIAL` name, resolved under `utilities` and relativized
to the package root. -/
def getBulmaInitial (c : Compiler) : List String :=
  INITIAL.map (fun n =>
    importLine (asPosixRel (relTo c.root (bulmaPath c ++ ["utilities", n]))))

/-- Model of `Compiler.get_bulma_derived` (bulma.py lines 316-325): every
entry of the `utilities` directory whose dot-free name is not excluded, each
one imported under its dot-free name. -/
def getBulmaDerived (c : Compiler) : List String :=
  (iterdir c.fs (bulmaPath c ++ ["utilities"])).filterMap (fun e =>
    let name := get_name (lastName e.path)
    if DERIVED_EXCLUDE.contains name then none
    else some (importLine (asPosixRel (relTo c.root (bulmaPath c ++ ["utilities", name])))))

/-- Model of `Compiler.get_bulma_imports` (bulma.py lines 305-308): every
top-level subdirectory of the framework source except `utilities`, resolved
to its `_all` aggregate file. -/
def getBulmaImports (c : Compiler) : List String :=
  (iterdir c.fs (bulmaPath c)).filterMap (fun e =>
    if e.isDir && lastName e.path != "utilities" then
      some (importLine (asPosixRel (relTo c.root (e.path ++ ["_all"]))))
    else none)

/-- The `SASS_PATTERNS` rule list (bulma.py lines 71-80): relative directory
inside the extension paired with a glob pattern, in priority order. -/
def SASS_PATTERNS : List (List String × String) :=
  [ (["src", "sass"], "_all.sass"),
    (["src", "sass"], "index.sass"),
    (["src", "sass"], "*.sass"),
    (["src"], "*.s[ac]ss"),
    (["dist"], "*.sass"),
    (["dist"], "*.min.css"),
    (["dist"], "*.css"),
    ([], "*.s[ac]ss") ]

/-- Model of `Compiler.get_sass_files_dirty` (bulma.py lines 495-504): for
each rule in order, recursively glob under the extension subdirectory; for a
compiled-CSS pattern strip the final suffix; admit the path when its dot-free
name is the `_all` sentinel or non-private, and is not `demo`. -/
def getSassFilesDirty (c : Compiler) (extPath : List String) : List (List String) :=
  SASS_PATTERNS.bind (fun rule =>
    (rglob c.fs (extPath ++ rule.1) rule.2).filterMap (fun p =>
      let p' := if strEndsWith rule.2 ".css" then withSuffixEmpty p else p
      let name := get_name (lastName p')
      if (name = "_all" ∨ is_private name = false) ∧ name ≠ "demo" then some p' else none))

/-- Model of `Compiler.get_sass_files` (bulma.py lines 506-507):
deduplication of the dirty enumeration, keeping first occurrences. -/
def getSassFiles (c : Compiler) (extPath : List String) : List (List String) :=
  unique (getSassFilesDirty c extPath)

/-- Model of `Compiler.get_extension_imports` (bulma.py lines 327-331): for
every enabled extension directory, one import line per resolved sass file,
relativized to the package root. -/
def getExtensionImports (c : Compiler) : List String :=
  (iterdir c.fs (c.root ++ ["extensions"])).bind (fun e =>
    if isEnabled c (lastName e.path) then
      (getSassFiles c e.path).map (fun p => importLine (asPosixRel (relTo c.root p)))
    else [])

/-- The variable mapping a theme compiles with: a copy of the global
variables, updated by the theme's overrides when a theme is named (bulma.py
lines 334-337). -/
def mergedVariables (c : Compiler) (theme : Option String) : List (String × String) :=
  match theme with
  | none => c.variablesMap
  | some t => dictUpdate c.variablesMap (getThemeVariables c t)

/-- Model of `Compiler.generate_theme` (bulma.py lines 333-352): the full
emission sequence of the document assembler. -/
def generateTheme (c : Compiler) (theme : Option String) : List String :=
  [CHARSET] ++ [""] ++
    getBulmaInitial c ++ [""] ++
    generateVariables (mergedVariables c theme) ++ [""] ++
    getBulmaDerived c ++ [""] ++
    getBulmaImports c ++ [""] ++
    pySplitlines c.override ++ [""] ++
    getExtensionImports c ++ [""]

/-- One call to the external stylesheet compiler `sass.compile`: the source
text and the optional keyword arguments the caller passes; `none` means the
keyword was not supplied and libsass uses its default. -/
structure SassCall where
  source : String
  outputStyle : Option String
  includePaths : Option (List String)
deriving DecidableEq

/-- The call `Compiler.compile_theme` makes (bulma.py lines 360-367): the
newline-joined document, the configured output style, and the package root as
the include search path. -/
def compileThemeCall (c : Compiler) (theme : Option String) : SassCall :=
  { source := String.intercalate "\n" (generateTheme c theme),
    outputStyle := some c.outputStyle,
    includePaths := some [asPosixAbs c.root] }

/-- Model of `Compiler.compile_theme` given the external compiler as a pure
function over calls. -/
def compileTheme (c : Compiler) (sassCompile : SassCall → String)
    (theme : Option String) : String :=
  sassCompile (compileThemeCall c theme)

/-- Model of `IMPORT.format(path=..., output_style=...)` as written in
`Compiler.compile_path` (bulma.py lines 448-453): the template references
only its path placeholder, so the extra `output_style` keyword argument to
`str.format` is ignored. -/
def pyFormatImport (path : String) (outputStyle : String) : String :=
  importLine path

/-- Model of `Path(path).as_posix()` on the POSIX path strings the
configuration's custom file list holds: the identity. -/
def pathAsPosix (s : String) : String :=
  s

/-- The call `Compiler.compile_path` makes (bulma.py lines 448-453): only the
`string` argument is supplied; `output_style` and `include_paths` are left to
their libsass defaults. -/
def compilePathCall (c : Compiler) (path : String) : SassCall :=
  { source := pyFormatImport (pathAsPosix path) c.outputStyle,
    outputStyle := none,
    includePaths := none }

/-- Model of `Compiler.compile_path` given the external compiler. -/
def compilePath (c : Compiler) (sassCompile : SassCall → String) (path : String) : String :=
  sassCompile (compilePathCall c path)

/-- The output filename of a theme (bulma.py lines 20-21, 387-391): the base
theme compiles to `bulma.css`, a named theme to `{theme}_bulma.css`. -/
def themeFileName : Option String → String
  | none => "bulma.css"
  | some t => t ++ "_bulma.css"

/-- Mutable filesystem state for the saving operations: the set of existing
directories and the written files with their contents (newest first). -/
structure FSState where
  dirs : List (List String)
  files : List (List String × String)

/-- Model of `Path.mkdir(exist_ok=...)`: with `exist_ok` an existing
directory is left untouched, otherwise it raises `FileExistsError`. -/
def mkdirState (st : FSState) (p : List String) (existOk : Bool) : Except String FSState :=
  if p ∈ st.dirs then
    if existOk then Except.ok st else Except.error "FileExistsError"
  else Except.ok { st with dirs := p :: st.dirs }

/-- Model of `Path.write_text`: create or overwrite the file. -/
def writeText (st : FSState) (p : List String) (text : String) : FSState :=
  { st with files := (p, text) :: st.files }

/-- Read back a written file: the most recent write wins. -/
def readFile (st : FSState) (p : List String) : Option String :=
  (st.files.find? (fun f => f.1 = p)).map (fun f => f.2)

/-- Model of `Compiler.save_theme` (bulma.py lines 375-395): compile the
theme, create the `css` directory under the output root with `exist_ok=True`,
write the compiled text to the theme's filename, and return the written
(absolute) path. -/
def saveTheme (c : Compiler) (sassCompile : SassCall → String) (theme : Option String)
    (root : Option (List String)) (st : FSState) :
    Except String (FSState × List String) :=
  let output := compileTheme c sassCompile theme
  let rootPath := root.getD c.root
  match mkdirState st (rootPath ++ ["css"]) true with
  | Except.error e => Except.error e
  | Except.ok st' =>
      let path := rootPath ++ ["css", themeFileName theme]
      Except.ok (writeText st' path output, path)

/-- Model of `Compiler.save_theme_relative` (bulma.py lines 397-403): save
the theme and return its path relative to the output root, as a
forward-slash string. -/
def saveThemeRelative (c : Compiler) (sassCompile : SassCall → String)
    (theme : Option String) (root : Option (List String)) (st : FSState) :
    Except String (FSState × String) :=
  let rootPath := root.getD c.root
  match saveTheme c sassCompile theme root st with
  | Except.error e => Except.error e
  | Except.ok (st', p) =>
      match relativeToChecked p rootPath with
      | some r => Except.ok (st', asPosixRel r)
      | none => Except.error "ValueError"

/-- The themed filename `Include.find_theme_relative` searches for (bulma.py
lines 171-176): `bulma.css` for the base theme, `{theme}_bulma.css`
otherwise. -/
def expectedThemeName (theme : Option String) : String :=
  themeFileName theme

/-- Render an `Optional[str]` the way the f-string `f"{theme!r}"` does. -/
def pyReprOpt : Option String → String
  | none => "None"
  | some t => pyRepr t

/-- Model of `Include.find_theme_relative` (bulma.py lines 171-182): linear
search over the stored theme paths for the first whose basename equals the
expected filename; raising `RuntimeError` is modelled by the `Except.error`
carrying the formatted message. -/
def findThemeRelative (themes : List String) (theme : Option String) :
    Except String String :=
  match themes with
  | [] => Except.error ("Can not find " ++ pyReprOpt theme ++ " theme.")
  | f :: rest =>
      if pathName f = expectedThemeName theme then Except.ok f
      else findThemeRelative rest theme

/-- The `JS_PATTERN` glob (bulma.py line 83). -/
def JS_PATTERN : String :=
  "*[!min].js"

/-- The `MIN_JS_PATTERN` glob (bulma.py line 82). -/
def MIN_JS_PATTERN : String :=
  "*.min.js"

/-- The non-minified candidate enumeration of `Compiler.get_js_files`
(bulma.py lines 509-515): recursive glob of `JS_PATTERN` under the
extension's `dist` directory, excluding files with a `.test` suffix. -/
def jsCandidates (c : Compiler) (extPath : List String) : List (List String) :=
  (rglob c.fs (extPath ++ ["dist"]) JS_PATTERN).filter
    (fun p => !((pySuffixes (lastName p)).contains ".test"))

/-- The minified-file dictionary of `Compiler.get_js_files` (bulma.py lines
518-521): a dict comprehension keyed by the dot-free name, so a later
enumerated file overwrites an earlier one with the same key. -/
def buildMinDict (ms : List (List String)) : List (String × List String) :=
  ms.foldl (fun d m => setItem d (get_name (lastName m), m)) []

/-- Model of `Compiler.get_js_files` (bulma.py lines 509-527): with
`minified` set, each candidate is replaced by the dictionary entry for its
dot-free name when present; otherwise the plain candidates are yielded. -/
def getJsFiles (c : Compiler) (extPath : List String) : List (List String) :=
  let files := jsCandidates c extPath
  if c.minified then
    let minifiedFiles := buildMinDict (rglob c.fs (extPath ++ ["dist"]) MIN_JS_PATTERN)
    files.map (fun f => (alookup minifiedFiles (get_name (lastName f))).getD f)
  else files

/-- A concrete extension filesystem in which one file matches two rules of
the fixed rule list: `src/a.sass` is matched by the rule
`(["src"], "*.s[ac]ss")` and again by the whole-extension rule
`([], "*.s[ac]ss")`. -/
def c2fs : List Entry :=
  [ { path := ["app", "extensions"], isDir := true },
    { path := ["app", "extensions", "ext"], isDir := true },
    { path := ["app", "extensions", "ext", "src"], isDir := true },
    { path := ["app", "extensions", "ext", "src", "a.sass"], isDir := false } ]

/-- A compiler configured over `c2fs`. -/
def c2compiler : Compiler :=
  { root := ["app"], fs := c2fs, extensionsSel := ExtSel.explicitList ["ext"],
    themes := [], variablesMap := [], override := "", minified := true,
    outputStyle := "nested", custom := [], settings := [] }

/-- A concrete extension filesystem for the C3 witness. -/
def c3fs : List Entry :=
  [ { path := ["app", "extensions"], isDir := true },
    { path := ["app", "extensions", "ext"], isDir := true },
    { path := ["app", "extensions", "ext", "a.sass"], isDir := false } ]

/-- A compiler configured over `c3fs`. -/
def c3compiler : Compiler :=
  { root := ["app"], fs := c3fs, extensionsSel := ExtSel.explicitList ["ext"],
    themes := [], variablesMap := [], override := "", minified := true,
    outputStyle := "nested", custom := [], settings := [] }

/-- Predicate of C9: the CPython stem of the name ends in `m`, `i` or `n`. -/
def stemEndsMin (s : String) : Bool :=
  match (pyStem s).toList.getLast? with
  | some ch => ['m', 'i', 'n'].contains ch
  | none => false

/-- A concrete extension filesystem for the C4 counterexample: one sass file
directly under the extension directory. -/
def c4fs : List Entry :=
  [ { path := ["app", "extensions"], isDir := true },
    { path := ["app", "extensions", "ext"], isDir := true },
    { path := ["app", "extensions", "ext", "a.sass"], isDir := false } ]

/-- A compiler configured over `c4fs`, rooted at the absolute directory
`/app`. -/
def c4compiler : Compiler :=
  { root := ["app"], fs := c4fs, extensionsSel := ExtSel.explicitList ["ext"],
    themes := [], variablesMap := [], override := "", minified := true,
    outputStyle := "nested", custom := [], settings := [] }

/-- A compiler carrying the spec's variable-merge example: globals
`x=1, y=2` and dark-theme overrides `y=3, z=4`. -/
def c5compiler : Compiler :=
  { root := ["app"], fs := [], extensionsSel := ExtSel.explicitList [],
    themes := ["dark"], variablesMap := [("x", "1"), ("y", "2")], override := "",
    minified := true, outputStyle := "nested", custom := [],
    settings := [("dark_variables", [("y", "3"), ("z", "4")])] }

/-- A distribution directory holding scripts `a.js`, `b.js` and the minified
file `a.min.js` (the C6 example). -/
def c6fs : List Entry :=
  [ { path := ["ext"], isDir := true },
    { path := ["ext", "dist"], isDir := true },
    { path := ["ext", "dist", "a.js"], isDir := false },
    { path := ["ext", "dist", "b.js"], isDir := false },
    { path := ["ext", "dist", "a.min.js"], isDir := false } ]

/-- A compiler over `c6fs` with the given prefer-minified flag. -/
def c6compiler (minified : Bool) : Compiler :=
  { root := [], fs := c6fs, extensionsSel := ExtSel.explicitList ["ext"],
    themes := [], variablesMap := [], override := "", minified := minified,
    outputStyle := "nested", custom := [], settings := [] }

/-- A distribution directory holding `main.js` and `main.min.js` (the C9
example). -/
def c9fs : List Entry :=
  [ { path := ["ext"], isDir := true },
    { path := ["ext", "dist"], isDir := true },
    { path := ["ext", "dist", "main.js"], isDir := false },
    { path := ["ext", "dist", "main.min.js"], isDir := false } ]

/-- A compiler over `c9fs` with the given prefer-minified flag. -/
def c9compiler (minified : Bool) : Compiler :=
  { root := [], fs := c9fs, extensionsSel := ExtSel.explicitList ["ext"],
    themes := [], variablesMap := [], override := "", minified := minified,
    outputStyle := "nested", custom := [], settings := [] }

/-- A distribution directory holding one plain script `foo.js`, used by the
C9 witness. -/
def c9wfs : List Entry :=
  [ { path := ["ext"], isDir := true },
    { path := ["ext", "dist"], isDir := true },
    { path := ["ext", "dist", "foo.js"], isDir := false } ]

/-- A compiler over `c9wfs`. -/
def c9wcompiler : Compiler :=
  { root := [], fs := c9wfs, extensionsSel := ExtSel.explicitList ["ext"],
    themes := [], variablesMap := [], override := "", minified := true,
    outputStyle := "nested", custom := [], settings := [] }

/-- Membership in the dedup output: an item survives exactly when it occurs
in the input and was not already seen. -/
theorem mem_uniqueAux {α : Type} [DecidableEq α] (l : List α) :
    ∀ (seen : List α) (a : α), a ∈ uniqueAux seen l ↔ a ∈ l ∧ a ∉ seen := by
  induction l with
  | nil => intro seen a; simp [uniqueAux]
  | cons b rest ih =>
    intro seen a
    by_cases hb : b ∈ seen
    · simp only [uniqueAux, if_pos hb, ih, List.mem_cons]
      constructor
      · rintro ⟨ha, hs⟩
        exact ⟨Or.inr ha, hs⟩
      · rintro ⟨rfl | ha, hs⟩
        · exact absurd hb hs
        · exact ⟨ha, hs⟩
    · simp only [uniqueAux, if_neg hb, List.mem_cons, ih]
      constructor
      · rintro (rfl | ⟨ha, hs⟩)
        · exact ⟨Or.inl rfl, hb⟩
        · push_neg at hs
          exact ⟨Or.inr ha, hs.2⟩
      · rintro ⟨rfl | ha, hs⟩
        · exact Or.inl rfl
        · by_cases hab : a = b
          · exact Or.inl hab
          · refine Or.inr ⟨ha, ?_⟩
            push_neg
            exact ⟨hab, hs⟩

/-- Dedup never emits an item twice. -/
theorem uniqueAux_nodup {α : Type} [DecidableEq α] (l : List α) :
    ∀ (seen : List α), (uniqueAux seen l).Nodup := by
  induction l with
  | nil => intro seen; simp [uniqueAux]
  | cons b rest ih =>
    intro seen
    by_cases hb : b ∈ seen
    · simpa [uniqueAux, if_pos hb] using ih seen
    · simp only [uniqueAux, if_neg hb, List.nodup_cons]
      refine ⟨?_, ih (b :: seen)⟩
      intro hmem
      exact ((mem_uniqueAux rest (b :: seen) b).mp hmem).2 (List.mem_cons_self b seen)

/-- Dedup output is a sublist of its input: first occurrences are kept in
input order and later duplicates are dropped, never reordered. -/
theorem uniqueAux_sublist {α : Type} [DecidableEq α] (l : List α) :
    ∀ (seen : List α), (uniqueAux seen l).Sublist l := by
  induction l with
  | nil => intro seen; simp [uniqueAux]
  | cons b rest ih =>
    intro seen
    by_cases hb : b ∈ seen
    · simpa [uniqueAux, if_pos hb] using (ih seen).trans (List.sublist_cons_self b rest)
    · simpa [uniqueAux, if_neg hb] using List.Sublist.cons₂ b (ih (b :: seen))

/-- The seen-set is used only through membership, so membership-equivalent
seen-sets produce the same dedup output. -/
theorem uniqueAux_congr {α : Type} [DecidableEq α] (l : List α) :
    ∀ (s₁ s₂ : List α), (∀ a, a ∈ s₁ ↔ a ∈ s₂) → uniqueAux s₁ l = uniqueAux s₂ l := by
  induction l with
  | nil => intro s₁ s₂ _; rfl
  | cons b rest ih =>
    intro s₁ s₂ h
    by_cases hb : b ∈ s₁
    · rw [uniqueAux, uniqueAux, if_pos hb, if_pos ((h b).mp hb)]
      exact ih s₁ s₂ h
    · rw [uniqueAux, uniqueAux, if_neg hb, if_neg (fun hc => hb ((h b).mpr hc))]
      refine congrArg (b :: ·) (ih (b :: s₁) (b :: s₂) ?_)
      intro a
      simp only [List.mem_cons]
      exact or_congr Iff.rfl (h a)

/-- Extending the seen-set by one item equals pre-filtering that item away. -/
theorem uniqueAux_cons_seen {α : Type} [DecidableEq α] (l : List α) :
    ∀ (s : List α) (a : α),
      uniqueAux (a :: s) l = uniqueAux s (l.filter (fun x => decide (x ≠ a))) := by
  induction l with
  | nil => intro s a; rfl
  | cons c rest ih =>
    intro s a
    by_cases hca : c = a
    · subst hca
      have h1 : uniqueAux (c :: s) (c :: rest) = uniqueAux (c :: s) rest := by
        rw [uniqueAux, if_pos (List.mem_cons_self c s)]
      have h2 : (c :: rest).filter (fun x => decide (x ≠ c)) =
          rest.filter (fun x => decide (x ≠ c)) := by
        simp [List.filter_cons]
      rw [h1, h2, ih s c]
    · have h2 : (c :: rest).filter (fun x => decide (x ≠ a)) =
          c :: rest.filter (fun x => decide (x ≠ a)) := by
        simp [List.filter_cons, hca]
      rw [h2]
      by_cases hc : c ∈ s
      · rw [uniqueAux, if_pos (List.mem_cons_of_mem _ hc), uniqueAux, if_pos hc]
        exact ih s a
      · have hc' : c ∉ a :: s := by simp [List.mem_cons, hca, hc]
        rw [uniqueAux, if_neg hc', uniqueAux, if_neg hc]
        refine congrArg (c :: ·) ?_
        rw [uniqueAux_congr rest (c :: a :: s) (a :: c :: s)
          (fun x => by simp only [List.mem_cons]; tauto)]
        exact ih (c :: s) a

/-- Filtering away an item already in the seen-set does not change the
output. -/
theorem uniqueAux_filter_seen {α : Type} [DecidableEq α] (l : List α) :
    ∀ (s : List α) (a : α), a ∈ s →
      uniqueAux s (l.filter (fun x => decide (x ≠ a))) = uniqueAux s l := by
  induction l with
  | nil => intro s a _; rfl
  | cons c rest ih =>
    intro s a ha
    by_cases hca : c = a
    · subst hca
      have h2 : (c :: rest).filter (fun x => decide (x ≠ c)) =
          rest.filter (fun x => decide (x ≠ c)) := by
        simp [List.filter_cons]
      rw [h2, ih s c ha, uniqueAux, if_pos ha]
    · have h2 : (c :: rest).filter (fun x => decide (x ≠ a)) =
          c :: rest.filter (fun x => decide (x ≠ a)) := by
        simp [List.filter_cons, hca]
      rw [h2]
      by_cases hc : c ∈ s
      · rw [uniqueAux, if_pos hc, uniqueAux, if_pos hc]
        exact ih s a ha
      · rw [uniqueAux, if_neg hc, uniqueAux, if_neg hc]
        exact congrArg (c :: ·) (ih (c :: s) a (List.mem_cons_of_mem _ ha))

/-- Splitting the input of the dedup across a boundary: the items of the
second part that already occurred in the first part are dropped, and every
kept item of the first part is emitted from its first-part occurrence. -/
theorem uniqueAux_append {α : Type} [DecidableEq α] (l₁ : List α) :
    ∀ (l₂ s : List α),
      uniqueAux s (l₁ ++ l₂) =
        uniqueAux s l₁ ++ uniqueAux s (l₂.filter (fun x => decide (x ∉ l₁))) := by
  induction l₁ with
  | nil =>
    intro l₂ s
    simp [uniqueAux]
  | cons a l₁ ih =>
    intro l₂ s
    have hsplit :
        l₂.filter (fun x => decide (x ∉ a :: l₁)) =
          (l₂.filter (fun x => decide (x ∉ l₁))).filter (fun x => decide (x ≠ a)) := by
      rw [List.filter_filter]
      refine List.filter_congr ?_
      intro x _
      by_cases hx : x = a <;> by_cases hxl : x ∈ l₁ <;> simp [List.mem_cons, hx, hxl]
    by_cases ha : a ∈ s
    · rw [List.cons_append, uniqueAux, if_pos ha, ih, uniqueAux, if_pos ha]
      refine congrArg (uniqueAux s l₁ ++ ·) ?_
      rw [hsplit, uniqueAux_filter_seen _ s a ha]
    · rw [List.cons_append, uniqueAux, if_neg ha, ih, uniqueAux, if_neg ha, List.cons_append]
      refine congrArg (a :: ·) (congrArg (uniqueAux (a :: s) l₁ ++ ·) ?_)
      rw [uniqueAux_cons_seen _ s a, hsplit]

/-- C2: for every extension root, the resolver result contains no path twice;
it is a sublist of the dirty rule-by-rule enumeration (so the order of first
occurrence is preserved and later duplicates are silently dropped, not
reordered) with the same members; and across any split of the rule-by-rule
enumeration — in particular at a rule boundary — the items of the later part
that already occurred in the earlier part are dropped, so when two rules
match the same resolved file only the earlier rule's occurrence is kept. -/
theorem c2_sass_resolver_dedup (c : Compiler) (extPath : List String) :
    (getSassFiles c extPath).Nodup ∧
    (getSassFiles c extPath).Sublist (getSassFilesDirty c extPath) ∧
    (∀ p, p ∈ getSassFiles c extPath ↔ p ∈ getSassFilesDirty c extPath) ∧
    (∀ l₁ l₂, getSassFilesDirty c extPath = l₁ ++ l₂ →
      getSassFiles c extPath =
        unique l₁ ++ unique (l₂.filter (fun p => decide (p ∉ l₁)))) := by
  refine ⟨uniqueAux_nodup _ [], uniqueAux_sublist _ [], ?_, ?_⟩
  · intro p
    rw [getSassFiles, unique, mem_uniqueAux]
    simp
  · intro l₁ l₂ hsplit
    rw [getSassFiles, hsplit, unique, uniqueAux_append]
    simp [unique]

/-- Witness for C2 at the concrete duplicate: the dirty enumeration lists
`src/a.sass` twice (once per matching rule) and the resolver keeps exactly
the first occurrence. -/
theorem c2_sass_resolver_dedup_witness :
    getSassFilesDirty c2compiler ["app", "extensions", "ext"] =
      [["app", "extensions", "ext", "src", "a.sass"],
       ["app", "extensions", "ext", "src", "a.sass"]] ∧
    getSassFiles c2compiler ["app", "extensions", "ext"] =
      unique [["app", "extensions", "ext", "src", "a.sass"]] ++
        unique (([["app", "extensions", "ext", "src", "a.sass"]]).filter
          (fun p => decide (p ∉ [["app", "extensions", "ext", "src", "a.sass"]]))) := by
  refine ⟨by decide, ?_⟩
  exact (c2_sass_resolver_dedup c2compiler ["app", "extensions", "ext"]).2.2.2
    [["app", "extensions", "ext", "src", "a.sass"]]
    [["app", "extensions", "ext", "src", "a.sass"]] (by decide)

/-- C3: every file the resolver yields has a logical name — computed after
the compiled-suffix stripping the resolver applies — that is private only if
it is exactly the `_all` aggregate sentinel, and is never `demo`. -/
theorem c3_sass_resolver_exclusion (c : Compiler) (extPath : List String)
    (p : List String) (hp : p ∈ getSassFiles c extPath) :
    (is_private (get_name (lastName p)) = true → get_name (lastName p) = "_all") ∧
    get_name (lastName p) ≠ "demo" := by
  rw [getSassFiles, unique, mem_uniqueAux] at hp
  obtain ⟨hp, -⟩ := hp
  simp only [getSassFilesDirty, List.mem_bind, List.mem_filterMap] at hp
  obtain ⟨rule, -, q, -, hq⟩ := hp
  have final :
      (get_name (lastName p) = "_all" ∨ is_private (get_name (lastName p)) = false) ∧
        get_name (lastName p) ≠ "demo" →
      (is_private (get_name (lastName p)) = true → get_name (lastName p) = "_all") ∧
        get_name (lastName p) ≠ "demo" := by
    intro hcond
    refine ⟨?_, hcond.2⟩
    intro hpriv
    rcases hcond.1 with h1 | h1
    · exact h1
    · rw [hpriv] at h1
      cases h1
  split at hq
  · split at hq
    · next hcond =>
        obtain rfl := Option.some.inj hq
        exact final hcond
    · exact Option.noConfusion hq
  · split at hq
    · next hcond =>
        obtain rfl := Option.some.inj hq
        exact final hcond
    · exact Option.noConfusion hq

/-- Witness for C3 at a concrete resolved file. -/
theorem c3_sass_resolver_exclusion_witness :
    (is_private (get_name (lastName ["app", "extensions", "ext", "a.sass"])) = true →
      get_name (lastName ["app", "extensions", "ext", "a.sass"]) = "_all") ∧
    get_name (lastName ["app", "extensions", "ext", "a.sass"]) ≠ "demo" :=
  c3_sass_resolver_exclusion c3compiler ["app", "extensions", "ext"]
    ["app", "extensions", "ext", "a.sass"] (by decide)

/-- C1: for every theme (including the unnamed base theme) the document
assembler emits exactly the charset line, the framework initial-variable
lines of import in their fixed order, the merged variable declarations, the derived
utility imports, the top-level module imports, the raw override block split
into lines (empty when unset, since splitting the empty string yields no
lines), and the extension imports of the enabled extensions — each section
separated by a blank line and ending with a trailing blank line. -/
theorem c1_document_assembler_order (c : Compiler) (theme : Option String) :
    generateTheme c theme =
      [CHARSET] ++ [""] ++
        getBulmaInitial c ++ [""] ++
        generateVariables (mergedVariables c theme) ++ [""] ++
        getBulmaDerived c ++ [""] ++
        getBulmaImports c ++ [""] ++
        pySplitlines c.override ++ [""] ++
        getExtensionImports c ++ [""] ∧
    pySplitlines "" = [] ∧
    (generateTheme c theme).getLast? = some "" := by
  refine ⟨rfl, by decide, ?_⟩
  rw [generateTheme]
  exact List.getLast?_concat _

/-- A lookup misses exactly when the key is absent. -/
theorem alookup_eq_none {α : Type} (d : List (String × α)) (k : String) :
    alookup d k = none ↔ k ∉ d.map Prod.fst := by
  induction d with
  | nil => simp [alookup]
  | cons kv rest ih =>
    by_cases h : kv.1 = k
    · simp [alookup, h]
    · simp only [alookup, if_neg h, List.map_cons, List.mem_cons, ih]
      constructor
      · intro hn hc
        rcases hc with hc | hc
        · exact h hc.symm
        · exact hn hc
      · intro hn
        exact fun hc => hn (Or.inr hc)

/-- Keys after one dict assignment: unchanged for a present key, the new key
appended otherwise. -/
theorem map_fst_setItem {α : Type} (d : List (String × α)) (kv : String × α) :
    (setItem d kv).map Prod.fst =
      if kv.1 ∈ d.map Prod.fst then d.map Prod.fst else d.map Prod.fst ++ [kv.1] := by
  rw [setItem]
  by_cases h : kv.1 ∈ d.map Prod.fst
  · rw [if_pos h, if_pos h, List.map_map]
    refine List.map_congr_left ?_
    intro p _
    by_cases hp : p.1 = kv.1 <;> simp [hp]
  · rw [if_neg h, if_neg h]
    simp

/-- Replacing the value at a key other than the looked-up one is invisible. -/
theorem alookup_map_replace_ne {α : Type} (d : List (String × α)) (k₀ : String)
    (v₀ : α) (k : String) (hk : k₀ ≠ k) :
    alookup (d.map (fun p => if p.1 = k₀ then (p.1, v₀) else p)) k = alookup d k := by
  induction d with
  | nil => rfl
  | cons a rest ih =>
    by_cases ha : a.1 = k₀
    · have hane : a.1 ≠ k := fun hak => hk (ha ▸ hak)
      simp [alookup, ha, hane, hk, ih]
    · by_cases hak : a.1 = k
      · simp [alookup, ha, hak, Ne.symm hk]
      · simp [alookup, ha, hak, ih]

/-- Replacing the value at a present key makes the lookup return the new
value. -/
theorem alookup_map_replace_eq {α : Type} (d : List (String × α)) (k₀ : String)
    (v₀ : α) (hmem : k₀ ∈ d.map Prod.fst) :
    alookup (d.map (fun p => if p.1 = k₀ then (p.1, v₀) else p)) k₀ = some v₀ := by
  induction d with
  | nil => simp at hmem
  | cons a rest ih =>
    by_cases ha : a.1 = k₀
    · simp [alookup, ha]
    · rw [List.map_cons] at hmem
      rcases List.mem_cons.mp hmem with h | h
      · exact absurd h.symm ha
      · simp [alookup, ha, ih h]

/-- Lookup across an append: the left part wins. -/
theorem alookup_append {α : Type} (d₁ d₂ : List (String × α)) (k : String) :
    alookup (d₁ ++ d₂) k =
      match alookup d₁ k with
      | some v => some v
      | none => alookup d₂ k := by
  induction d₁ with
  | nil => simp [alookup]
  | cons a rest ih =>
    by_cases ha : a.1 = k
    · simp [alookup, ha]
    · simp [alookup, ha, ih]

/-- Lookup after one dict assignment: the assigned key now maps to the
assigned value, every other key is unchanged. -/
theorem alookup_setItem {α : Type} (d : List (String × α)) (k₀ : String) (v₀ : α)
    (k : String) :
    alookup (setItem d (k₀, v₀)) k = if k₀ = k then some v₀ else alookup d k := by
  rw [setItem]
  by_cases hmem : k₀ ∈ d.map Prod.fst
  · rw [if_pos hmem]
    by_cases hk : k₀ = k
    · subst hk
      rw [if_pos rfl]
      exact alookup_map_replace_eq d k₀ v₀ hmem
    · rw [if_neg hk]
      exact alookup_map_replace_ne d k₀ v₀ k hk
  · rw [if_neg hmem, alookup_append]
    by_cases hk : k₀ = k
    · subst hk
      rw [(alookup_eq_none d k₀).mpr hmem]
      simp [alookup]
    · rcases hcase : alookup d k with _ | v
      · simp [alookup, hk, hcase]
      · simp [hk, hcase]

/-- Characterization of the Python dict update used for variable merging:
(for dicts, whose key lists are duplicate-free) the result lists every key of
the base mapping first, in base order, with the override value where the
override has the key; followed by the override-only keys in override order. -/
theorem dictUpdate_characterization {α : Type} (o : List (String × α)) :
    (o.map Prod.fst).Nodup →
    ∀ (g : List (String × α)), (g.map Prod.fst).Nodup →
      dictUpdate g o =
        g.map (fun kv => (kv.1, (alookup o kv.1).getD kv.2)) ++
          o.filter (fun kv => (alookup g kv.1).isNone) := by
  induction o with
  | nil =>
    intro _ g _
    simp [dictUpdate, alookup]
  | cons kw o ih =>
    intro ho g hg
    obtain ⟨k, w⟩ := kw
    rw [List.map_cons, List.nodup_cons] at ho
    obtain ⟨hk_not, ho'⟩ := ho
    have halo : alookup o k = none := (alookup_eq_none o k).mpr hk_not
    have hg' : ((setItem g (k, w)).map Prod.fst).Nodup := by
      rw [map_fst_setItem]
      by_cases hmem : k ∈ g.map Prod.fst
      · simpa [hmem] using hg
      · simp [if_neg hmem, List.nodup_append, hg, hmem]
    rw [show dictUpdate g ((k, w) :: o) = dictUpdate (setItem g (k, w)) o from rfl,
      ih ho' (setItem g (k, w)) hg']
    by_cases hmem : k ∈ g.map Prod.fst
    · have hset : setItem g (k, w) = g.map (fun p => if p.1 = k then (p.1, w) else p) := by
        rw [setItem, if_pos hmem]
      rw [hset]
      have hmap : (g.map (fun p => if p.1 = k then (p.1, w) else p)).map
            (fun kv => (kv.1, (alookup o kv.1).getD kv.2)) =
          g.map (fun kv => (kv.1, (alookup ((k, w) :: o) kv.1).getD kv.2)) := by
        rw [List.map_map]
        refine List.map_congr_left ?_
        intro p _
        by_cases hp : p.1 = k
        · simp [Function.comp, hp, alookup, halo]
        · have hkp : ¬ k = p.1 := fun h => hp h.symm
          simp [Function.comp, hp, alookup, hkp]
      have hgk : ¬ alookup g k = none := fun h => ((alookup_eq_none g k).mp h) hmem
      have hfil : o.filter (fun kv =>
            (alookup (g.map (fun p => if p.1 = k then (p.1, w) else p)) kv.1).isNone) =
          ((k, w) :: o).filter (fun kv => (alookup g kv.1).isNone) := by
        rw [List.filter_cons]
        have hfalse : ((alookup g (k, w).1).isNone : Bool) = false := by
          show (alookup g k).isNone = false
          rcases h : alookup g k with _ | v
          · exact absurd h hgk
          · rfl
        rw [hfalse]
        simp only [Bool.false_eq_true, if_false]
        refine List.filter_congr ?_
        intro kv hkv
        have hne : ¬ k = kv.1 := by
          intro h
          apply hk_not
          show k ∈ List.map Prod.fst o
          rw [h]
          exact List.mem_map_of_mem Prod.fst hkv
        rw [alookup_map_replace_ne g k w kv.1 hne]
      rw [hmap, hfil]
    · have hset : setItem g (k, w) = g ++ [(k, w)] := by
        rw [setItem, if_neg hmem]
      rw [hset]
      have hgk : alookup g k = none := (alookup_eq_none g k).mpr hmem
      have hsing : ([(k, w)] : List (String × α)).map
          (fun kv => (kv.1, (alookup o kv.1).getD kv.2)) = [(k, w)] := by
        simp [alookup, halo]
      have hmap : g.map (fun kv => (kv.1, (alookup o kv.1).getD kv.2)) =
          g.map (fun kv => (kv.1, (alookup ((k, w) :: o) kv.1).getD kv.2)) := by
        refine List.map_congr_left ?_
        intro p hp
        have hkp : ¬ k = p.1 := by
          intro h
          apply hmem
          rw [h]
          exact List.mem_map_of_mem Prod.fst hp
        simp [alookup, hkp]
      have hfil : o.filter (fun kv => (alookup (g ++ [(k, w)]) kv.1).isNone) =
          o.filter (fun kv => (alookup g kv.1).isNone) := by
        refine List.filter_congr ?_
        intro kv hkv
        have hne : ¬ k = kv.1 := by
          intro h
          apply hk_not
          show k ∈ List.map Prod.fst o
          rw [h]
          exact List.mem_map_of_mem Prod.fst hkv
        have heq : alookup (g ++ [(k, w)]) kv.1 = alookup g kv.1 := by
          rw [alookup_append]
          rcases h : alookup g kv.1 with _ | v
          · simp [alookup, hne]
          · simp
        rw [heq]
      rw [List.map_append, hsing, hfil, hmap, List.filter_cons]
      have htrue : ((alookup g (k, w).1).isNone : Bool) = true := by
        show (alookup g k).isNone = true
        rw [hgk]
        rfl
      rw [htrue]
      simp [List.append_assoc]

/-- C5: the merged variable mapping a theme compiles with is the global
mapping updated by the theme's overrides — an override value wins on a shared
key, non-overridden global keys persist, and iteration order is all global
keys first in their original order followed by theme-only keys in override
order; a missing per-theme override mapping behaves as empty, leaving the
globals unchanged. -/
theorem c5_variable_merge (c : Compiler) (theme : String)
    (hg : (c.variablesMap.map Prod.fst).Nodup)
    (ho : ((getThemeVariables c theme).map Prod.fst).Nodup) :
    mergedVariables c (some theme) =
      c.variablesMap.map
          (fun kv => (kv.1, (alookup (getThemeVariables c theme) kv.1).getD kv.2)) ++
        (getThemeVariables c theme).filter
          (fun kv => (alookup c.variablesMap kv.1).isNone) ∧
    (alookup c.settings (theme ++ "_variables") = none →
      mergedVariables c (some theme) = c.variablesMap) := by
  constructor
  · exact dictUpdate_characterization (getThemeVariables c theme) ho c.variablesMap hg
  · intro hnone
    show dictUpdate c.variablesMap (getThemeVariables c theme) = c.variablesMap
    rw [getThemeVariables, hnone]
    rfl

/-- Witness for C5 at the spec's example: globals `x=1, y=2` with dark
overrides `y=3, z=4` merge to `x=1, y=3, z=4` in that iteration order. -/
theorem c5_variable_merge_witness :
    mergedVariables c5compiler (some "dark") =
      c5compiler.variablesMap.map
          (fun kv => (kv.1, (alookup (getThemeVariables c5compiler "dark") kv.1).getD kv.2)) ++
        (getThemeVariables c5compiler "dark").filter
          (fun kv => (alookup c5compiler.variablesMap kv.1).isNone) ∧
    mergedVariables c5compiler (some "dark") = [("x", "1"), ("y", "3"), ("z", "4")] := by
  refine ⟨(c5_variable_merge c5compiler "dark" (by decide) (by decide)).1, by decide⟩

/-- Unpacking membership in the recursive glob: matched paths lie strictly
below the start directory and their final component matches the pattern. -/
theorem mem_rglob (fs : List Entry) (dir : List String) (pat : String)
    (p : List String) (hp : p ∈ rglob fs dir pat) :
    dir <+: p ∧ dir.length < p.length ∧ globMatch pat (lastName p) = true := by
  simp only [rglob, List.mem_map, List.mem_filter] at hp
  obtain ⟨e, ⟨-, hcond⟩, rfl⟩ := hp
  simp only [Bool.and_eq_true, decide_eq_true_eq] at hcond
  obtain ⟨⟨h1, h2⟩, h3⟩ := hcond
  exact ⟨List.isPrefixOf_iff_prefix.mp h1, h2, h3⟩

/-- Stripping the final suffix of the last component keeps every strictly
shorter prefix of the path. -/
theorem prefix_withSuffixEmpty (dir p : List String) (h : dir <+: p)
    (hlen : dir.length < p.length) :
    dir <+: withSuffixEmpty p ∧ dir.length < (withSuffixEmpty p).length := by
  obtain ⟨t, rfl⟩ := h
  have ht : t ≠ [] := by
    intro h0
    rw [h0] at hlen
    simp at hlen
  rw [withSuffixEmpty, List.dropLast_append_of_ne_nil dir ht, List.append_assoc]
  constructor
  · exact List.prefix_append dir _
  · simp

/-- Every path the resolver yields still lies below the extension root it was
discovered under. -/
theorem mem_getSassFiles_under (c : Compiler) (extPath : List String)
    (p : List String) (hp : p ∈ getSassFiles c extPath) :
    extPath <+: p ∧ extPath.length < p.length := by
  rw [getSassFiles, unique, mem_uniqueAux] at hp
  obtain ⟨hp, -⟩ := hp
  simp only [getSassFilesDirty, List.mem_bind, List.mem_filterMap] at hp
  obtain ⟨rule, -, q, hq, hadmit⟩ := hp
  obtain ⟨hpre, hlen, -⟩ := mem_rglob c.fs (extPath ++ rule.1) rule.2 q hq
  have hpre' : extPath <+: q := (List.prefix_append extPath rule.1).trans hpre
  have hlen' : extPath.length < q.length := by
    have : extPath.length ≤ (extPath ++ rule.1).length := by simp
    omega
  split at hadmit
  · split at hadmit
    · next =>
        obtain rfl := Option.some.inj hadmit
        exact prefix_withSuffixEmpty extPath q hpre' hlen'
    · exact Option.noConfusion hadmit
  · split at hadmit
    · next =>
        obtain rfl := Option.some.inj hadmit
        exact ⟨hpre', hlen'⟩
    · exact Option.noConfusion hadmit

/-- C4 counterexample: at a concrete configuration rooted at `/app`, the
resolver yields the discovered path itself, which carries the engine root as
a prefix (it is absolute); the root-relative form of that path is not in the
result, refuting the claim that result paths are expressed relative to the
engine root. -/
theorem c4_counterexample :
    getSassFiles c4compiler ["app", "extensions", "ext"] =
      [["app", "extensions", "ext", "a.sass"]] ∧
    c4compiler.root.isPrefixOf ["app", "extensions", "ext", "a.sass"] = true ∧
    relTo c4compiler.root ["app", "extensions", "ext", "a.sass"] =
      ["extensions", "ext", "a.sass"] ∧
    (["extensions", "ext", "a.sass"] : List String) ∉
      getSassFiles c4compiler ["app", "extensions", "ext"] := by
  refine ⟨by decide, by decide, by decide, by decide⟩

/-- C4 amended: the resolver yields the discovered paths themselves, still
below the extension root; the relativization to the engine root happens when
`get_extension_imports` renders each resolved path into an import line. -/
theorem c4_amended_relativization (c : Compiler) :
    (∀ extPath p, p ∈ getSassFiles c extPath → extPath <+: p) ∧
    (∀ line, line ∈ getExtensionImports c →
      ∃ e p, e ∈ iterdir c.fs (c.root ++ ["extensions"]) ∧
        isEnabled c (lastName e.path) = true ∧
        p ∈ getSassFiles c e.path ∧
        line = importLine (asPosixRel (relTo c.root p))) := by
  constructor
  · intro extPath p hp
    exact (mem_getSassFiles_under c extPath p hp).1
  · intro line hline
    simp only [getExtensionImports, List.mem_bind] at hline
    obtain ⟨e, he, hmem⟩ := hline
    by_cases hen : isEnabled c (lastName e.path) = true
    · rw [if_pos hen] at hmem
      simp only [List.mem_map] at hmem
      obtain ⟨p, hp, rfl⟩ := hmem
      exact ⟨e, p, he, hen, hp, rfl⟩
    · rw [if_neg hen] at hmem
      cases hmem

/-- Witness for the amended C4 at the concrete configuration. -/
theorem c4_amended_relativization_witness :
    (["app", "extensions", "ext"] : List String) <+:
        ["app", "extensions", "ext", "a.sass"] ∧
    (∃ e p, e ∈ iterdir c4compiler.fs (c4compiler.root ++ ["extensions"]) ∧
      isEnabled c4compiler (lastName e.path) = true ∧
      p ∈ getSassFiles c4compiler e.path ∧
      "@import 'extensions/ext/a.sass';" =
        importLine (asPosixRel (relTo c4compiler.root p))) := by
  refine ⟨(c4_amended_relativization c4compiler).1 ["app", "extensions", "ext"]
    ["app", "extensions", "ext", "a.sass"] (by decide),
    (c4_amended_relativization c4compiler).2 "@import 'extensions/ext/a.sass';" (by decide)⟩

/-- The dict comprehension of `get_js_files` maps each dot-free name to the
last enumerated minified file carrying it. -/
theorem alookup_buildMinDict (ms : List (List String)) (k : String) :
    alookup (buildMinDict ms) k =
      ms.reverse.find? (fun m => decide (get_name (lastName m) = k)) := by
  induction ms using List.reverseRecOn with
  | nil => rfl
  | append_singleton ms m ih =>
    rw [buildMinDict, List.foldl_append]
    show alookup (setItem (buildMinDict ms) (get_name (lastName m), m)) k = _
    rw [alookup_setItem, List.reverse_append]
    by_cases h : get_name (lastName m) = k
    · simp [h]
    · simp [h, ih]

/-- C6: with the prefer-minified flag set, each non-minified candidate is
replaced, in enumeration order, by the minified file sharing its dot-free
base name when one exists (the last enumerated one, per dict semantics), and
is emitted unchanged otherwise; with the flag clear the candidates are
emitted as they are.  At the example directory holding `a.js`, `b.js` and
`a.min.js`, the output is `a.min.js, b.js` and `a.js, b.js` respectively. -/
theorem c6_minified_substitution :
    (∀ (c : Compiler) (extPath : List String),
      getJsFiles c extPath =
        if c.minified then
          (jsCandidates c extPath).map (fun f =>
            ((rglob c.fs (extPath ++ ["dist"]) MIN_JS_PATTERN).reverse.find?
                (fun m => decide (get_name (lastName m) = get_name (lastName f)))).getD f)
        else jsCandidates c extPath) ∧
    getJsFiles (c6compiler true) ["ext"] =
      [["ext", "dist", "a.min.js"], ["ext", "dist", "b.js"]] ∧
    getJsFiles (c6compiler false) ["ext"] =
      [["ext", "dist", "a.js"], ["ext", "dist", "b.js"]] := by
  refine ⟨?_, by decide, by decide⟩
  intro c extPath
  rw [getJsFiles]
  by_cases hm : c.minified
  · rw [if_pos hm, if_pos hm]
    refine List.map_congr_left ?_
    intro f _
    rw [alookup_buildMinDict]
  · rw [if_neg hm, if_neg hm]

/-- C7: the theme search is a linear first-match scan by basename, and when
no stored path matches it fails with the formatted not-found error instead of
returning a default; in particular requesting `missing-theme` on a manifest
holding only compiled themes fails. -/
theorem c7_find_theme_linear_search :
    (∀ (themes : List String) (theme : Option String),
      findThemeRelative themes theme =
        match themes.find? (fun f => decide (pathName f = expectedThemeName theme)) with
        | some f => Except.ok f
        | none => Except.error ("Can not find " ++ pyReprOpt theme ++ " theme.")) ∧
    findThemeRelative ["css/bulma.css", "css/dark_bulma.css"] (some "missing-theme") =
      Except.error "Can not find 'missing-theme' theme." := by
  refine ⟨?_, by rfl⟩
  intro themes theme
  induction themes with
  | nil => rfl
  | cons f rest ih =>
    rw [findThemeRelative]
    by_cases h : pathName f = expectedThemeName theme
    · rw [if_pos h, List.find?_cons_of_pos _ (by simp [h])]
    · rw [if_neg h, ih, List.find?_cons_of_neg _ (by simp [h])]

/-- Joining the two-component relative path. -/
theorem asPosixRel_pair (a b : String) : asPosixRel [a, b] = a ++ "/" ++ b :=
  rfl

/-- C8: saving a theme succeeds from every starting filesystem state — in
particular when the CSS output directory already exists, so its creation is
idempotent — creates the `css` directory under the output root, writes the
compiled text to `bulma.css` for the base theme or `{theme}_bulma.css` for a
named theme, and returns that file's path relative to the output root joined
with forward slashes. -/
theorem c8_save_theme (c : Compiler) (sassCompile : SassCall → String)
    (theme : Option String) (rootOpt : Option (List String)) (st : FSState) :
    ∃ st', saveThemeRelative c sassCompile theme rootOpt st =
        Except.ok (st', "css/" ++ themeFileName theme) ∧
      ((rootOpt.getD c.root) ++ ["css"]) ∈ st'.dirs ∧
      readFile st' ((rootOpt.getD c.root) ++ ["css", themeFileName theme]) =
        some (compileTheme c sassCompile theme) := by
  have hjoin : asPosixRel ["css", themeFileName theme] = "css/" ++ themeFileName theme :=
    rfl
  have hpre : (rootOpt.getD c.root).isPrefixOf
      ((rootOpt.getD c.root) ++ ["css", themeFileName theme]) = true :=
    List.isPrefixOf_iff_prefix.mpr (List.prefix_append _ _)
  by_cases hdir : ((rootOpt.getD c.root) ++ ["css"]) ∈ st.dirs
  · refine ⟨writeText st ((rootOpt.getD c.root) ++ ["css", themeFileName theme])
      (compileTheme c sassCompile theme), ?_, ?_, ?_⟩
    · rw [saveThemeRelative, saveTheme, mkdirState, if_pos hdir]
      simp [relativeToChecked, hpre, List.drop_left, hjoin]
    · exact hdir
    · rw [readFile, writeText]
      simp
  · refine ⟨writeText { st with dirs := ((rootOpt.getD c.root) ++ ["css"]) :: st.dirs }
      ((rootOpt.getD c.root) ++ ["css", themeFileName theme])
      (compileTheme c sassCompile theme), ?_, ?_, ?_⟩
    · rw [saveThemeRelative, saveTheme, mkdirState, if_neg hdir]
      simp [relativeToChecked, hpre, List.drop_left, hjoin]
    · exact List.mem_cons_self _ _
    · rw [readFile, writeText]
      simp

/-- The matcher is fuel-insensitive once the fuel exceeds the combined length
of pattern and input. -/
theorem matchFuel_congr : ∀ (f g : Nat) (toks : List Tok) (s : List Char),
    toks.length + s.length < f → toks.length + s.length < g →
    matchFuel f toks s = matchFuel g toks s := by
  intro f
  induction f with
  | zero =>
    intro g toks s hf _
    omega
  | succ f' ih =>
    intro g toks s hf hg
    cases g with
    | zero => omega
    | succ g' =>
      cases toks with
      | nil => rfl
      | cons t ps =>
        rw [List.length_cons] at hf hg
        cases t with
        | star =>
          cases s with
          | nil =>
            rw [List.length_nil] at hf hg
            show (matchFuel f' ps [] || false) = (matchFuel g' ps [] || false)
            rw [ih g' ps [] (by simp only [List.length_nil]; omega)
              (by simp only [List.length_nil]; omega)]
          | cons ch s' =>
            rw [List.length_cons] at hf hg
            show (matchFuel f' ps (ch :: s') || matchFuel f' (Tok.star :: ps) s') =
              (matchFuel g' ps (ch :: s') || matchFuel g' (Tok.star :: ps) s')
            rw [ih g' ps (ch :: s') (by simp only [List.length_cons]; omega)
              (by simp only [List.length_cons]; omega),
              ih g' (Tok.star :: ps) s' (by simp only [List.length_cons]; omega)
              (by simp only [List.length_cons]; omega)]
        | lit ch =>
          cases s with
          | nil => rfl
          | cons ch' s' =>
            rw [List.length_cons] at hf hg
            show (ch == ch' && matchFuel f' ps s') = (ch == ch' && matchFuel g' ps s')
            rw [ih g' ps s' (by omega) (by omega)]
        | anyChar =>
          cases s with
          | nil => rfl
          | cons ch' s' =>
            rw [List.length_cons] at hf hg
            show matchFuel f' ps s' = matchFuel g' ps s'
            exact ih g' ps s' (by omega) (by omega)
        | cls neg set =>
          cases s with
          | nil => rfl
          | cons ch' s' =>
            rw [List.length_cons] at hf hg
            show (set.contains ch' != neg && matchFuel f' ps s') =
              (set.contains ch' != neg && matchFuel g' ps s')
            rw [ih g' ps s' (by omega) (by omega)]

/-- One matcher step on a class token. -/
theorem matchToks_cls_cons (neg : Bool) (set : List Char) (ps : List Tok)
    (c : Char) (s' : List Char) :
    matchToks (Tok.cls neg set :: ps) (c :: s') =
      (set.contains c != neg && matchToks ps s') := by
  show (set.contains c != neg &&
      matchFuel ((Tok.cls neg set :: ps).length + (c :: s').length) ps s') = _
  rw [matchFuel_congr ((Tok.cls neg set :: ps).length + (c :: s').length)
    (ps.length + s'.length + 1) ps s'
    (by simp only [List.length_cons]; omega) (by omega)]
  rfl

/-- A class token fails on the empty input. -/
theorem matchToks_cls_nil (neg : Bool) (set : List Char) (ps : List Tok) :
    matchToks (Tok.cls neg set :: ps) [] = false :=
  rfl

/-- One matcher step on a literal token. -/
theorem matchToks_lit_cons (c : Char) (ps : List Tok) (c' : Char) (s' : List Char) :
    matchToks (Tok.lit c :: ps) (c' :: s') = (c == c' && matchToks ps s') := by
  show (c == c' && matchFuel ((Tok.lit c :: ps).length + (c' :: s').length) ps s') = _
  rw [matchFuel_congr ((Tok.lit c :: ps).length + (c' :: s').length)
    (ps.length + s'.length + 1) ps s'
    (by simp only [List.length_cons]; omega) (by omega)]
  rfl

/-- A literal token fails on the empty input. -/
theorem matchToks_lit_nil (c : Char) (ps : List Tok) :
    matchToks (Tok.lit c :: ps) [] = false :=
  rfl

/-- The empty pattern matches exactly the empty input. -/
theorem matchToks_nil (s : List Char) : matchToks [] s = s.isEmpty :=
  rfl

/-- A leading star matches exactly when the rest of the pattern matches some
suffix of the input: this is the semantics of `*` in `fnmatch`. -/
theorem matchFuel_star_suffix : ∀ (f : Nat) (ps : List Tok) (s : List Char),
    (Tok.star :: ps).length + s.length < f →
    (matchFuel f (Tok.star :: ps) s = true ↔
      ∃ t, t <:+ s ∧ matchToks ps t = true) := by
  intro f
  induction f with
  | zero =>
    intro ps s hlt
    omega
  | succ f' ih =>
    intro ps s hlt
    rw [List.length_cons] at hlt
    cases s with
    | nil =>
      show (matchFuel f' ps [] || false) = true ↔ _
      rw [Bool.or_false,
        matchFuel_congr f' (ps.length + List.length [] + 1) ps []
          (by simp only [List.length_nil] at hlt ⊢; omega)
          (by omega)]
      constructor
      · intro h
        exact ⟨[], List.suffix_refl [], h⟩
      · rintro ⟨t, hsuf, ht⟩
        obtain rfl := List.suffix_nil.mp hsuf
        exact ht
    | cons c s' =>
      rw [List.length_cons] at hlt
      show (matchFuel f' ps (c :: s') || matchFuel f' (Tok.star :: ps) s') = true ↔ _
      rw [matchFuel_congr f' (ps.length + (c :: s').length + 1) ps (c :: s')
          (by simp only [List.length_cons]; omega)
          (by omega)]
      constructor
      · intro h
        rw [Bool.or_eq_true] at h
        rcases h with h1 | h2
        · exact ⟨c :: s', List.suffix_refl _, h1⟩
        · obtain ⟨t, hsuf, ht⟩ :=
            (ih ps s' (by simp only [List.length_cons]; omega)).mp h2
          exact ⟨t, hsuf.trans (List.suffix_cons c s'), ht⟩
      · rintro ⟨t, hsuf, ht⟩
        rw [Bool.or_eq_true]
        rcases List.suffix_cons_iff.mp hsuf with rfl | hsuf'
        · exact Or.inl ht
        · exact Or.inr ((ih ps s' (by simp only [List.length_cons]; omega)).mpr
            ⟨t, hsuf', ht⟩)

/-- The star semantics at the canonical fuel. -/
theorem matchToks_star_iff (ps : List Tok) (s : List Char) :
    matchToks (Tok.star :: ps) s = true ↔ ∃ t, t <:+ s ∧ matchToks ps t = true :=
  matchFuel_star_suffix ((Tok.star :: ps).length + s.length + 1) ps s (by omega)

/-- The tokens of the `JS_PATTERN` glob `*[!min].js`. -/
theorem tokenize_js :
    tokenize JS_PATTERN =
      [Tok.star, Tok.cls true ['m', 'i', 'n'], Tok.lit '.', Tok.lit 'j', Tok.lit 's'] := by
  decide

/-- Inputs matched by the tail of `*[!min].js` after the star: exactly one
character outside `m`, `i`, `n`, followed by the literal `.js`. -/
theorem matchToks_js_tail (t : List Char)
    (h : matchToks [Tok.cls true ['m', 'i', 'n'], Tok.lit '.', Tok.lit 'j', Tok.lit 's']
        t = true) :
    ∃ c, t = [c, '.', 'j', 's'] ∧ (['m', 'i', 'n'].contains c = false) := by
  cases t with
  | nil => exact absurd h (by rw [matchToks_cls_nil]; simp)
  | cons c t1 =>
    rw [matchToks_cls_cons, Bool.and_eq_true] at h
    obtain ⟨hc, h1⟩ := h
    have hcontains : ['m', 'i', 'n'].contains c = false := by
      revert hc
      cases ['m', 'i', 'n'].contains c <;> simp
    cases t1 with
    | nil => exact absurd h1 (by rw [matchToks_lit_nil]; simp)
    | cons d t2 =>
      rw [matchToks_lit_cons, Bool.and_eq_true] at h1
      obtain ⟨hd, h2⟩ := h1
      obtain rfl : '.' = d := beq_iff_eq.mp hd
      cases t2 with
      | nil => exact absurd h2 (by rw [matchToks_lit_nil]; simp)
      | cons e t3 =>
        rw [matchToks_lit_cons, Bool.and_eq_true] at h2
        obtain ⟨he, h3⟩ := h2
        obtain rfl : 'j' = e := beq_iff_eq.mp he
        cases t3 with
        | nil => exact absurd h3 (by rw [matchToks_lit_nil]; simp)
        | cons f t4 =>
          rw [matchToks_lit_cons, Bool.and_eq_true] at h3
          obtain ⟨hf, h4⟩ := h3
          obtain rfl : 's' = f := beq_iff_eq.mp hf
          rw [matchToks_nil] at h4
          obtain rfl := List.isEmpty_iff.mp h4
          exact ⟨c, rfl, hcontains⟩

/-- The last-dot index shifts across a prefix once the tail holds a dot. -/
theorem lastDotIdx_append_of_some (l₁ l₂ : List Char) (i : Nat)
    (h : lastDotIdx l₂ = some i) :
    lastDotIdx (l₁ ++ l₂) = some (l₁.length + i) := by
  induction l₁ with
  | nil => simpa using h
  | cons c l₁ ih =>
    rw [List.cons_append, lastDotIdx, ih]
    simp only [List.length_cons]
    congr 1
    omega

/-- The last dot of `c, '.', 'j', 's'` sits at index one, whatever `c` is. -/
theorem lastDotIdx_char_dot_js (c : Char) :
    lastDotIdx [c, '.', 'j', 's'] = some 1 := by
  rw [lastDotIdx]
  rw [show lastDotIdx ['.', 'j', 's'] = some 0 from by decide]

/-- The CPython stem of a name of the shape `pre ++ c ++ ".js"`: the `.js`
suffix is stripped and the character before it survives as the last stem
character. -/
theorem pyStem_char_dot_js (name : String) (pre : List Char) (c : Char)
    (hname : name.toList = pre ++ [c, '.', 'j', 's']) :
    (pyStem name).toList = pre ++ [c] := by
  rw [pyStem, hname, lastDotIdx_append_of_some pre [c, '.', 'j', 's'] 1
    (lastDotIdx_char_dot_js c)]
  have hcond : 0 < pre.length + 1 ∧ pre.length + 1 < (pre ++ [c, '.', 'j', 's']).length - 1 := by
    simp only [List.length_append, List.length_cons, List.length_nil]
    omega
  show (if 0 < pre.length + 1 ∧ pre.length + 1 < (pre ++ [c, '.', 'j', 's']).length - 1
      then String.mk ((pre ++ [c, '.', 'j', 's']).take (pre.length + 1))
      else name).toList = pre ++ [c]
  rw [if_pos hcond, List.take_append_eq_append_take,
    List.take_of_length_le (by omega), show pre.length + 1 - pre.length = 1 from by omega]
  rfl

/-- Any name matched by the `JS_PATTERN` glob has a stem whose last character
is outside `m`, `i`, `n`. -/
theorem globMatch_js_stem (name : String) (h : globMatch JS_PATTERN name = true) :
    stemEndsMin name = false := by
  rw [globMatch, tokenize_js] at h
  obtain ⟨t, hsuf, ht⟩ := (matchToks_star_iff _ _).mp h
  obtain ⟨c, rfl, hc⟩ := matchToks_js_tail t ht
  obtain ⟨pre, hpre⟩ := hsuf
  rw [stemEndsMin, pyStem_char_dot_js name pre c hpre.symm, List.getLast?_concat]
  exact hc

/-- C9: because script enumeration uses the glob `*[!min].js`, no enumerated
candidate — and hence, for both flag values, no yielded non-minified script —
has a filename stem ending in `m`, `i` or `n'; at a distribution directory
holding `main.js` and `main.min.js` the resolver output is empty for both
flag values: `main.js` is silently omitted and `main.min.js` is never
substituted in on its behalf. -/
theorem c9_js_pattern_omission :
    (∀ (c : Compiler) (extPath : List String) (p : List String),
      p ∈ jsCandidates c extPath → stemEndsMin (lastName p) = false) ∧
    (∀ (c : Compiler) (extPath : List String) (p : List String),
      p ∈ getJsFiles c extPath → globMatch MIN_JS_PATTERN (lastName p) = false →
      stemEndsMin (lastName p) = false) ∧
    getJsFiles (c9compiler true) ["ext"] = [] ∧
    getJsFiles (c9compiler false) ["ext"] = [] := by
  have hcand : ∀ (c : Compiler) (extPath : List String) (p : List String),
      p ∈ jsCandidates c extPath → stemEndsMin (lastName p) = false := by
    intro c extPath p hp
    rw [jsCandidates] at hp
    obtain ⟨hp, -⟩ := List.mem_filter.mp hp
    obtain ⟨-, -, hmatch⟩ := mem_rglob c.fs (extPath ++ ["dist"]) JS_PATTERN p hp
    exact globMatch_js_stem (lastName p) hmatch
  refine ⟨hcand, ?_, by decide, by decide⟩
  intro c extPath p hp hnotmin
  rw [getJsFiles] at hp
  by_cases hm : c.minified
  · rw [if_pos hm] at hp
    obtain ⟨f, hf, hsub⟩ := List.mem_map.mp hp
    rcases halo : alookup (buildMinDict (rglob c.fs (extPath ++ ["dist"]) MIN_JS_PATTERN))
        (get_name (lastName f)) with _ | m
    · rw [halo] at hsub
      have hpf : f = p := hsub
      subst hpf
      exact hcand c extPath f hf
    · rw [halo] at hsub
      have hpm : m = p := hsub
      subst hpm
      rw [alookup_buildMinDict] at halo
      have hmem : m ∈ (rglob c.fs (extPath ++ ["dist"]) MIN_JS_PATTERN).reverse :=
        List.mem_of_find?_eq_some halo
      rw [List.mem_reverse] at hmem
      obtain ⟨-, -, hmatch⟩ := mem_rglob c.fs (extPath ++ ["dist"]) MIN_JS_PATTERN m hmem
      rw [hmatch] at hnotmin
      cases hnotmin
  · rw [if_neg hm] at hp
    exact hcand c extPath p hp

/-- Witness for C9 at a concrete enumerated candidate. -/
theorem c9_js_pattern_omission_witness :
    stemEndsMin (lastName ["ext", "dist", "foo.js"]) = false :=
  c9_js_pattern_omission.1 c9wcompiler ["ext"] ["ext", "dist", "foo.js"] (by decide)

/-- C10: `compile_path` invokes the external stylesheet compiler with only
the generated import-source text — the configured output style is
interpolated into the import template as an unused extra format argument, so
the call carries no `output_style` and no `include_paths`, leaving both to
the compiler's defaults whatever the configuration says — unlike
`compile_theme`, which passes the configured style and the engine root as the
include search path. -/
theorem c10_compile_path_defaults (c : Compiler) (path : String)
    (style₁ style₂ : String) (theme : Option String) :
    (compilePathCall c path).outputStyle = none ∧
    (compilePathCall c path).includePaths = none ∧
    (compilePathCall c path).source = importLine (pathAsPosix path) ∧
    pyFormatImport (pathAsPosix path) style₁ = pyFormatImport (pathAsPosix path) style₂ ∧
    compilePathCall { c with outputStyle := style₁ } path = compilePathCall c path ∧
    (compileThemeCall c theme).outputStyle = some c.outputStyle ∧
    (compileThemeCall c theme).includePaths = some [asPosixAbs c.root] :=
  ⟨rfl, rfl, rfl, rfl, rfl, rfl, rfl⟩
